import Mathlib

/-!
Verification of the phrase store of `deubot` (src/deubot/database.py): the
SM-2-derived scheduler (`update_review`), the trigram-Jaccard deduplication
index (`_normalize_phrase`, `_calculate_similarity`, `find_similar_phrase`),
the store operations (`add_phrase`, `get_due_phrases`, `get_all_phrases`,
`remove_phrases`) and the persistence record format (`_save` / `_load`).

Modelling conventions:
  * A Python `str` is a `List Char` (Python strings are sequences of code
    points; slicing, indexing and comparison are all per-character).
  * Python `float` values are modelled as `ℚ` with exact arithmetic
    (`0.1 = 1/10`, `0.08 = 2/25`, `0.02 = 1/50`, `2.5 = 5/2`, `1.3 = 13/10`).
  * `unicodedata.normalize("NFC", ·)` is a table-driven Unicode function; the
    development is parametric in it (`nfc : Str → Str`), so every theorem
    quantifying over `nfc` holds for the real NFC table in particular.
    Concrete scenarios instantiate `nfc` with a function that, like real NFC,
    is the identity on the ASCII strings involved.
  * `datetime.now()` is nondeterministic input: each operation that reads the
    clock takes the relevant rendered ISO timestamp(s) as an argument.
  * `dict[str, Phrase]` is an insertion-ordered association list whose key is
    the phrase's `id` field (the code always stores a phrase under its own
    id); `d[k] = v` replaces in place if the key exists, else appends.
-/

namespace Deubot

/-- A Python `str` as a sequence of code points. -/
abbrev Str := List Char

/-- Python string comparison `a <= b`: lexicographic on code points. -/
def strLe : Str → Str → Bool
  | [], _ => true
  | _ :: _, [] => false
  | a :: s, b :: t => if a = b then strLe s t else decide (a < b)

/-- ASCII whitespace as recognized by Python `str.strip()` / `str.split()`
(Python additionally handles Unicode spaces, which do not occur here). -/
def isPySpace (c : Char) : Bool :=
  c = ' ' ∨ c = '\t' ∨ c = '\n' ∨ c = '\x0b' ∨ c = '\x0c' ∨ c = '\r'

/-- Python `str.strip()`: drop leading and trailing whitespace. -/
def pyStrip (s : Str) : Str :=
  ((s.dropWhile isPySpace).reverse.dropWhile isPySpace).reverse

/-- Accumulator pass for `str.split()`: words are maximal nonempty runs of
non-whitespace characters. -/
def pySplitAux : Str → Str → List Str
  | [], acc => if acc = [] then [] else [acc.reverse]
  | c :: cs, acc =>
      if isPySpace c then
        if acc = [] then pySplitAux cs [] else acc.reverse :: pySplitAux cs []
      else pySplitAux cs (c :: acc)

/-- Python `str.split()` with no separator argument. -/
def pySplit (s : Str) : List Str := pySplitAux s []

/-- Python `str.lower()` restricted to ASCII case mapping (the Unicode table
does not matter for any claim: all concrete inputs are ASCII-cased). -/
def pyLower (s : Str) : Str := s.map Char.toLower

/-- The article list of `_normalize_phrase`, in source order, each with its
trailing space. -/
def articles : List Str :=
  ["der ".data, "die ".data, "das ".data, "ein ".data, "eine ".data,
   "einen ".data, "einem ".data, "einer ".data, "eines ".data]

/-- The article-stripping loop of `_normalize_phrase`: strip the first
matching leading article, then `break`. -/
def stripArticle (s : Str) : Str :=
  match articles.find? (fun a => a.isPrefixOf s) with
  | some a => s.drop a.length
  | none => s

/-- Mirrors `PhrasesDB._normalize_phrase`, parametric in the NFC table:
NFC-normalize, lowercase, strip, collapse internal whitespace, strip one
leading article. -/
def normalize_phrase (nfc : Str → Str) (phrase : Str) : Str :=
  let n1 := pyStrip (pyLower (nfc phrase))
  let n2 := List.intercalate [' '] (pySplit n1)
  stripArticle n2

/-- The padding + trigram-set extraction of `_calculate_similarity`:
`text = f"  {text} "` (two leading spaces, one trailing) followed by the set
of all 3-character substrings. -/
def get_trigrams (text : Str) : Finset Str :=
  let t : Str := ' ' :: ' ' :: (text ++ [' '])
  ((List.range (t.length - 2)).map (fun i => (t.drop i).take 3)).toFinset

/-- Mirrors `PhrasesDB._calculate_similarity`: trigram Jaccard index with the
empty-trigram-set and zero-union guards of the source. -/
def calculate_similarity (phrase1 phrase2 : Str) : ℚ :=
  let trigrams1 := get_trigrams phrase1
  let trigrams2 := get_trigrams phrase2
  if trigrams1 = ∅ ∨ trigrams2 = ∅ then
    if phrase1 = phrase2 then 1 else 0
  else
    let intersection := (trigrams1 ∩ trigrams2).card
    let union := (trigrams1 ∪ trigrams2).card
    if 0 < union then (intersection : ℚ) / (union : ℚ) else 0

/-- Trigram extraction as the spec's words describe it: padded with exactly
one leading and one trailing space (the source pads with two leading
spaces). Used only to compare the spec's formula with the code's. -/
def specGetTrigrams (text : Str) : Finset Str :=
  let t : Str := ' ' :: (text ++ [' '])
  ((List.range (t.length - 2)).map (fun i => (t.drop i).take 3)).toFinset

/-- The Jaccard index over `specGetTrigrams`, following the spec's words. -/
def specSimilarity (phrase1 phrase2 : Str) : ℚ :=
  ((specGetTrigrams phrase1 ∩ specGetTrigrams phrase2).card : ℚ) /
    ((specGetTrigrams phrase1 ∪ specGetTrigrams phrase2).card : ℚ)

/-- Python `int(x)` on a float: truncation toward zero. -/
def pyInt (q : ℚ) : ℤ := if 0 ≤ q then ⌊q⌋ else ⌈q⌉

/-- Python `f"{n}"` for a nonnegative integer: its decimal digit string. -/
def natToStr (n : ℕ) : Str := Nat.toDigits 10 n

/-- The `Phrase` dataclass. Defaults as in the source: `ease_factor = 2.5`,
`interval_days = 0`, `repetition = 0`, `next_review = None`. -/
structure Phrase where
  id : Str
  german : Str
  ease_factor : ℚ := 5/2
  interval_days : ℤ := 0
  repetition : ℤ := 0
  next_review : Option Str := none
deriving DecidableEq

/-- The in-memory state of `PhrasesDB`: the insertion-ordered `phrases` dict,
keyed by each phrase's `id` field. (`db_path` only routes `_save`/`_load`,
modelled separately at the record level.) -/
structure PhrasesDB where
  phrases : List Phrase
deriving DecidableEq

/-- Dict read `self.phrases.get(pid)` / the membership test
`pid in self.phrases`: first (unique) entry whose key is `pid`. -/
def PhrasesDB.lookup (db : PhrasesDB) (pid : Str) : Option Phrase :=
  db.phrases.find? (fun p => decide (p.id = pid))

/-- Dict write `self.phrases[k] = p`: replace in place if the key exists,
else append. -/
def dictSet : List Phrase → Str → Phrase → List Phrase
  | [], _, p => [p]
  | q :: qs, k, p => if q.id = k then p :: qs else q :: dictSet qs k p

/-- Mirrors `PhrasesDB.find_similar_phrase`: normalize the input, scan the stored
phrases in insertion order, return the first whose normalized `german` has
similarity `>= threshold` (default `0.85 = 17/20`). -/
def find_similar_phrase (nfc : Str → Str) (db : PhrasesDB) (german : Str)
    (threshold : ℚ := 17/20) : Option Phrase :=
  let normalized_input := normalize_phrase nfc german
  db.phrases.find? (fun p =>
    decide (threshold ≤ calculate_similarity normalized_input (normalize_phrase nfc p.german)))

/-- Mirrors `PhrasesDB.add_phrase`. On a dedup hit returns
`(existing.id, False, existing.german)` and leaves the store unmodified;
otherwise creates a phrase with id `f"{len(self.phrases) + 1}"`,
`next_review = now`, default schedule fields, and stores it. `now` is the
rendered `datetime.now().isoformat()` of this call. -/
def add_phrase (nfc : Str → Str) (db : PhrasesDB) (german : Str) (now : Str) :
    (Str × Bool × Option Str) × PhrasesDB :=
  match find_similar_phrase nfc db german with
  | some existing_phrase => ((existing_phrase.id, false, some existing_phrase.german), db)
  | none =>
      let phrase_id := natToStr (db.phrases.length + 1)
      let phrase : Phrase := { id := phrase_id, german := german, next_review := some now }
      ((phrase_id, true, none), ⟨dictSet db.phrases phrase_id phrase⟩)

/-- The body of `PhrasesDB.update_review` acting on one phrase (the pure
scheduler of spec §4.1). On success (`quality >= 3`) the ease factor is
updated first (clamped at `1.3`), the repetition incremented, and the
interval set from the new repetition count; the failure branch
(`quality < 3`) resets repetition to 0 and the interval to 1, leaving the
ease factor alone; finally `next_review` is set `interval_days` ahead.
`nowPlus d` is the rendered `(datetime.now() + timedelta(days=d)).isoformat()`
of the call. -/
def compute_next_schedule (phrase : Phrase) (quality : ℤ) (nowPlus : ℤ → Str) : Phrase :=
  let p1 : Phrase :=
    if 3 ≤ quality then
      let ef := max (13/10 : ℚ)
        (phrase.ease_factor +
          ((1/10 : ℚ) - (5 - (quality : ℚ)) * ((2/25 : ℚ) + (5 - (quality : ℚ)) * (1/50 : ℚ))))
      let rep := phrase.repetition + 1
      let interval : ℤ :=
        if rep = 1 then 1
        else if rep = 2 then 6
        else pyInt ((phrase.interval_days : ℚ) * ef)
      { phrase with ease_factor := ef, repetition := rep, interval_days := interval }
    else
      { phrase with repetition := 0, interval_days := 1 }
  { p1 with next_review := some (nowPlus p1.interval_days) }

/-- Mirrors `PhrasesDB.update_review`. Unknown `phrase_id` is a no-op; otherwise the
phrase's entry is overwritten with its next schedule state. -/
def update_review (db : PhrasesDB) (phrase_id : Str) (quality : ℤ)
    (nowPlus : ℤ → Str) : PhrasesDB :=
  match db.lookup phrase_id with
  | none => db
  | some phrase => ⟨dictSet db.phrases phrase_id (compute_next_schedule phrase quality nowPlus)⟩

/-- Mirrors `PhrasesDB.get_all_phrases`: snapshots of all phrases in insertion
order. -/
def get_all_phrases (db : PhrasesDB) : List Phrase := db.phrases

/-- The due filter of `get_due_phrases`:
`phrase.next_review and phrase.next_review <= now` — Python truthiness makes
both `None` and the empty string fail the first conjunct. -/
def duePred (now : Str) (p : Phrase) : Bool :=
  match p.next_review with
  | some r => decide (r ≠ []) && strLe r now
  | none => false

/-- The fallback sort key of `get_due_phrases`:
`p.next_review if p.next_review else ""`. -/
def dueKey (p : Phrase) : Str :=
  match p.next_review with
  | some r => if r = [] then [] else r
  | none => []

/-- Mirrors `PhrasesDB.get_due_phrases`: filter to due phrases; if none are due and
the store is non-empty, all phrases sorted (stably) by ascending
`next_review` with a falsy `next_review` keyed as `""`; truncate to `limit`
when given. `now` is this call's `datetime.now().isoformat()`. -/
def get_due_phrases (db : PhrasesDB) (now : Str) (limit : Option ℕ) : List Phrase :=
  let due_phrases := db.phrases.filter (duePred now)
  let due_phrases :=
    if due_phrases = [] ∧ db.phrases ≠ [] then
      db.phrases.mergeSort (fun p q => strLe (dueKey p) (dueKey q))
    else due_phrases
  match limit with
  | some l => due_phrases.take l
  | none => due_phrases

/-- Modelled from the spec: `remove_phrases` is referenced by the agent's
tool schemas but its implementation is not under src/. Spec §4.3: partition
the input ids by presence in the store, delete the present ones, persist
once if any were removed, and return `(removed_ids, not_found_ids)`;
not-found ids are reported, never raised. -/
def remove_phrases (db : PhrasesDB) (ids : List Str) :
    (List Str × List Str) × PhrasesDB :=
  let removed := ids.filter (fun i => db.phrases.any (fun p => decide (p.id = i)))
  let not_found := ids.filter (fun i => !db.phrases.any (fun p => decide (p.id = i)))
  ((removed, not_found),
    ⟨db.phrases.filter (fun p => !removed.any (fun i => decide (i = p.id)))⟩)

/-! ### Persistence (`_save` / `_load`), modelled at the record level

Each line of the backing file is one JSON object; the gzip/text encoding is
a bijective transport and is abstracted away: `_save` is modelled as the
list of per-phrase JSON records it writes, `_load` as the store built from
such a list. -/

/-- A JSON value of the shapes occurring in a phrase record. -/
inductive JVal where
  | str (v : Str)
  | rat (v : ℚ)
  | int (v : ℤ)
  | null
deriving DecidableEq

/-- One key-value JSON object, insertion-ordered like a Python dict. -/
abbrev JObj := List (Str × JVal)

/-- First value stored under a key, if any. -/
def JObj.get (o : JObj) (k : Str) : Option JVal :=
  (o.find? (fun e => decide (e.1 = k))).map (·.2)

/-- The record `_save` writes for one phrase: `asdict(phrase)` in dataclass
field order, with `id` popped and re-added at the end under the key `_id`. -/
def phraseToRec (p : Phrase) : JObj :=
  [("german".data, .str p.german),
   ("ease_factor".data, .rat p.ease_factor),
   ("interval_days".data, .int p.interval_days),
   ("repetition".data, .int p.repetition),
   ("next_review".data, match p.next_review with | some s => .str s | none => .null),
   ("_id".data, .str p.id)]

/-- The handling by `_load` of one line: rename `_id` back to `id`, then
`Phrase(**phrase_data)` — `id` and `german` are required, the schedule
fields fall back to the dataclass defaults; a record of any other shape is
a load failure. -/
def recToPhrase (o : JObj) : Option Phrase :=
  match o.get "_id".data, o.get "german".data with
  | some (.str i), some (.str g) =>
      let ef : Option ℚ := match o.get "ease_factor".data with
        | some (.rat e) => some e
        | none => some (5/2)
        | _ => none
      let iv : Option ℤ := match o.get "interval_days".data with
        | some (.int n) => some n
        | none => some 0
        | _ => none
      let rep : Option ℤ := match o.get "repetition".data with
        | some (.int n) => some n
        | none => some 0
        | _ => none
      let nr : Option (Option Str) := match o.get "next_review".data with
        | some (.str s) => some (some s)
        | some .null => some none
        | none => some none
        | _ => none
      match ef, iv, rep, nr with
      | some e, some n, some r, some v =>
          some { id := i, german := g, ease_factor := e, interval_days := n,
                 repetition := r, next_review := v }
      | _, _, _, _ => none
  | _, _ => none

/-- Mirrors `PhrasesDB._save`: the sequence of records written to the backing file,
one per stored phrase, in insertion order. -/
def saveRecords (db : PhrasesDB) : List JObj := db.phrases.map phraseToRec

/-- Mirrors `PhrasesDB._load`: parse each line and insert via
`self.phrases[phrase.id] = phrase`, starting from the empty dict. -/
def loadRecords (recs : List JObj) : Option PhrasesDB :=
  (recs.mapM recToPhrase).map
    (fun ps => ⟨ps.foldl (fun acc p => dictSet acc p.id p) []⟩)

/-! ### Operation sequences -/

/-- One externally triggered mutation, together with the clock readings the
call consumes. -/
inductive Op where
  | add (german : Str) (now : Str)
  | review (phrase_id : Str) (quality : ℤ) (nowPlus : ℤ → Str)

/-- Apply one operation to the store. -/
def applyOp (nfc : Str → Str) (db : PhrasesDB) : Op → PhrasesDB
  | .add german now => (add_phrase nfc db german now).2
  | .review pid q nowPlus => update_review db pid q nowPlus

/-- Run a sequence of operations from a given store. -/
def runOps (nfc : Str → Str) (db : PhrasesDB) : List Op → PhrasesDB
  | [] => db
  | op :: ops => runOps nfc (applyOp nfc db op) ops

/-- Repeated `add_phrase` of the same text: the list of returned triples and
the final store, one call per clock reading. -/
def addRepeat (nfc : Str → Str) (db : PhrasesDB) (german : Str) :
    List Str → List (Str × Bool × Option Str) × PhrasesDB
  | [] => ([], db)
  | now :: rest =>
      let r := add_phrase nfc db german now
      let rs := addRepeat nfc r.2 german rest
      (r.1 :: rs.1, rs.2)

/-! ### Shared lemmas -/

theorem find?_dictSet_self (l : List Phrase) (k : Str) (p : Phrase) (hk : p.id = k) :
    (dictSet l k p).find? (fun q => decide (q.id = k)) = some p := by
  induction l with
  | nil => simp [dictSet, hk]
  | cons q qs ih =>
      by_cases h : q.id = k
      · simp [dictSet, h, hk]
      · simp [dictSet, h, ih]

theorem dictSet_of_fresh (l : List Phrase) (k : Str) (p : Phrase)
    (h : ∀ q ∈ l, q.id ≠ k) : dictSet l k p = l ++ [p] := by
  induction l with
  | nil => rfl
  | cons q qs ih =>
      have hq : q.id ≠ k := h q (by simp)
      simp only [dictSet, if_neg hq, List.cons_append, List.cons.injEq, true_and]
      exact ih (fun r hr => h r (by simp [hr]))

theorem mem_dictSet {x : Phrase} (l : List Phrase) (k : Str) (p : Phrase)
    (hx : x ∈ dictSet l k p) : x ∈ l ∨ x = p := by
  induction l with
  | nil => simpa [dictSet] using hx
  | cons q qs ih =>
      by_cases h : q.id = k
      · simp only [dictSet, if_pos h] at hx
        rcases List.mem_cons.mp hx with h1 | h1
        · exact Or.inr h1
        · exact Or.inl (List.mem_cons_of_mem _ h1)
      · simp only [dictSet, if_neg h] at hx
        rcases List.mem_cons.mp hx with h1 | h1
        · exact Or.inl (h1 ▸ List.mem_cons_self _ _)
        · rcases ih h1 with h2 | h2
          · exact Or.inl (List.mem_cons_of_mem _ h2)
          · exact Or.inr h2

theorem get_trigrams_nonempty (t : Str) : (get_trigrams t).Nonempty := by
  refine ⟨((' ' :: ' ' :: (t ++ [' '])).drop 0).take 3, ?_⟩
  simp only [get_trigrams, List.mem_toFinset, List.mem_map]
  refine ⟨0, ?_, rfl⟩
  simp only [List.mem_range, List.length_cons, List.length_append]
  omega

theorem calculate_similarity_self (t : Str) : calculate_similarity t t = 1 := by
  have hne := get_trigrams_nonempty t
  have hpos : 0 < (get_trigrams t).card := Finset.card_pos.mpr hne
  simp only [calculate_similarity, Finset.inter_self, Finset.union_self]
  rw [if_neg, if_pos hpos, div_self]
  · exact_mod_cast hpos.ne'
  · rw [or_self]
    exact Finset.nonempty_iff_ne_empty.mp hne

theorem strLe_refl (s : Str) : strLe s s = true := by
  induction s with
  | nil => rfl
  | cons a s ih => simp [strLe, ih]

theorem strLe_total (a b : Str) : strLe a b = true ∨ strLe b a = true := by
  induction a generalizing b with
  | nil => exact Or.inl rfl
  | cons x xs ih =>
      cases b with
      | nil => exact Or.inr rfl
      | cons y ys =>
          by_cases h : x = y
          · subst h
            simpa [strLe] using ih ys
          · rcases lt_or_gt_of_ne h with hlt | hgt
            · exact Or.inl (by simp [strLe, h, hlt])
            · exact Or.inr (by simp [strLe, Ne.symm h, hgt])

theorem strLe_trans {a b c : Str} (hab : strLe a b = true) (hbc : strLe b c = true) :
    strLe a c = true := by
  induction a generalizing b c with
  | nil => rfl
  | cons x xs ih =>
      cases b with
      | nil => simp [strLe] at hab
      | cons y ys =>
          cases c with
          | nil => simp [strLe] at hbc
          | cons z zs =>
              by_cases hxy : x = y <;> by_cases hyz : y = z
              · subst hxy; subst hyz
                simp only [strLe, if_pos rfl] at hab hbc ⊢
                exact ih hab hbc
              · subst hxy
                simp only [strLe, if_neg hyz] at hbc
                simp only [strLe, if_neg hyz]
                exact hbc
              · subst hyz
                simp only [strLe, if_neg hxy] at hab
                simp only [strLe, if_neg hxy]
                exact hab
              · simp only [strLe, if_neg hxy] at hab
                simp only [strLe, if_neg hyz] at hbc
                have hxz : x < z := lt_trans (of_decide_eq_true hab) (of_decide_eq_true hbc)
                by_cases h : x = z
                · exact absurd (h ▸ hxz) (lt_irrefl z)
                · simp [strLe, h, hxz]

theorem compute_next_schedule_success (p : Phrase) (q : ℤ) (f : ℤ → Str) (hq : 3 ≤ q) :
    compute_next_schedule p q f =
      { p with
        ease_factor := max (13/10 : ℚ)
          (p.ease_factor +
            ((1/10 : ℚ) - (5 - (q : ℚ)) * ((2/25 : ℚ) + (5 - (q : ℚ)) * (1/50 : ℚ)))),
        repetition := p.repetition + 1,
        interval_days := if p.repetition + 1 = 1 then 1
          else if p.repetition + 1 = 2 then 6
          else pyInt ((p.interval_days : ℚ) *
            max (13/10 : ℚ)
              (p.ease_factor +
                ((1/10 : ℚ) - (5 - (q : ℚ)) * ((2/25 : ℚ) + (5 - (q : ℚ)) * (1/50 : ℚ))))),
        next_review := some (f (if p.repetition + 1 = 1 then 1
          else if p.repetition + 1 = 2 then 6
          else pyInt ((p.interval_days : ℚ) *
            max (13/10 : ℚ)
              (p.ease_factor +
                ((1/10 : ℚ) - (5 - (q : ℚ)) * ((2/25 : ℚ) + (5 - (q : ℚ)) * (1/50 : ℚ))))))) } := by
  unfold compute_next_schedule
  simp only [if_pos hq]

theorem compute_next_schedule_failure (p : Phrase) (q : ℤ) (f : ℤ → Str) (hq : q < 3) :
    compute_next_schedule p q f =
      { p with repetition := 0, interval_days := 1, next_review := some (f 1) } := by
  unfold compute_next_schedule
  simp only [if_neg (not_le.mpr hq)]

theorem compute_next_schedule_id (p : Phrase) (q : ℤ) (f : ℤ → Str) :
    (compute_next_schedule p q f).id = p.id := by
  unfold compute_next_schedule
  by_cases h : 3 ≤ q <;> simp [h]

theorem lookup_update_review (db : PhrasesDB) (pid : Str) (q : ℤ) (f : ℤ → Str)
    (p : Phrase) (hp : db.lookup pid = some p) :
    (update_review db pid q f).lookup pid = some (compute_next_schedule p q f) := by
  have hp' : List.find? (fun x => decide (x.id = pid)) db.phrases = some p := hp
  have hfind := List.find?_some hp'
  have hid : p.id = pid := by simpa using hfind
  unfold update_review
  rw [hp]
  exact find?_dictSet_self _ _ _ ((compute_next_schedule_id p q f).trans hid)

/-! ### Claims -/

/-- C1: for every phrase present in the store and every quality `>= 3`,
`update_review` sets the ease factor to
`max(1.3, ease_factor + (0.1 - (5 - quality) * (0.08 + (5 - quality) * 0.02)))`,
increments the repetition by 1, and sets the interval from the new
repetition count: `1` at repetition 1, `6` at repetition 2, and
`floor(previous interval_days * new ease factor)` from repetition 3 on
(the previous interval, the newly computed ease factor). The phrase's
`interval_days` is nonnegative in every reachable store (spec §3), which
makes Python's `int(...)` truncation the floor. -/
theorem update_review_success (db : PhrasesDB) (pid : Str) (q : ℤ) (f : ℤ → Str)
    (p : Phrase) (hp : db.lookup pid = some p) (hq : 3 ≤ q) (hI : 0 ≤ p.interval_days) :
    ∃ p', (update_review db pid q f).lookup pid = some p' ∧
      p'.ease_factor =
        max (13/10 : ℚ)
          (p.ease_factor +
            ((1/10 : ℚ) - (5 - (q : ℚ)) * ((2/25 : ℚ) + (5 - (q : ℚ)) * (1/50 : ℚ)))) ∧
      p'.repetition = p.repetition + 1 ∧
      p'.interval_days =
        (if p.repetition + 1 = 1 then 1
         else if p.repetition + 1 = 2 then 6
         else ⌊(p.interval_days : ℚ) * p'.ease_factor⌋) := by
  have hef : (13/10 : ℚ) ≤
      max (13/10 : ℚ)
        (p.ease_factor +
          ((1/10 : ℚ) - (5 - (q : ℚ)) * ((2/25 : ℚ) + (5 - (q : ℚ)) * (1/50 : ℚ)))) :=
    le_max_left _ _
  have hnn : (0 : ℚ) ≤ (p.interval_days : ℚ) *
      max (13/10 : ℚ)
        (p.ease_factor +
          ((1/10 : ℚ) - (5 - (q : ℚ)) * ((2/25 : ℚ) + (5 - (q : ℚ)) * (1/50 : ℚ)))) :=
    mul_nonneg (by exact_mod_cast hI) (le_trans (by norm_num) hef)
  refine ⟨compute_next_schedule p q f, lookup_update_review db pid q f p hp, ?_, ?_, ?_⟩ <;>
    rw [compute_next_schedule_success p q f hq]
  show (if p.repetition + 1 = 1 then (1 : ℤ)
      else if p.repetition + 1 = 2 then 6
      else pyInt ((p.interval_days : ℚ) * _)) = _
  by_cases h1 : p.repetition + 1 = 1
  · simp [h1]
  · by_cases h2 : p.repetition + 1 = 2
    · simp [h1, h2]
    · simp only [if_neg h1, if_neg h2, pyInt, if_pos hnn]

/-- C1 witness: a default phrase reviewed with quality 3. -/
theorem update_review_success_witness :
    ∃ p', (update_review ⟨[{ id := "1".data, german := "a".data }]⟩ "1".data 3
        (fun _ => [])).lookup "1".data = some p' ∧
      p'.ease_factor =
        max (13/10 : ℚ)
          ((5/2 : ℚ) +
            ((1/10 : ℚ) - (5 - ((3 : ℤ) : ℚ)) * ((2/25 : ℚ) + (5 - ((3 : ℤ) : ℚ)) * (1/50 : ℚ)))) ∧
      p'.repetition = 0 + 1 ∧
      p'.interval_days =
        (if (0 : ℤ) + 1 = 1 then 1
         else if (0 : ℤ) + 1 = 2 then 6
         else ⌊((0 : ℤ) : ℚ) * p'.ease_factor⌋) :=
  update_review_success ⟨[{ id := "1".data, german := "a".data }]⟩ "1".data 3 (fun _ => [])
    { id := "1".data, german := "a".data } rfl (by decide) (by decide)

/-- C2: for every phrase present in the store and every quality `< 3`,
`update_review` resets the repetition to 0 and the interval to 1 and leaves
the ease factor exactly unchanged. -/
theorem update_review_failure (db : PhrasesDB) (pid : Str) (q : ℤ) (f : ℤ → Str)
    (p : Phrase) (hp : db.lookup pid = some p) (hq : q < 3) :
    ∃ p', (update_review db pid q f).lookup pid = some p' ∧
      p'.repetition = 0 ∧ p'.interval_days = 1 ∧ p'.ease_factor = p.ease_factor := by
  refine ⟨compute_next_schedule p q f, lookup_update_review db pid q f p hp, ?_, ?_, ?_⟩ <;>
    rw [compute_next_schedule_failure p q f hq]

/-- C2 witness: three quality-3 reviews reach repetition 3; one quality-2
review then resets repetition to 0 and the interval to 1 and keeps the
ease factor exactly at its pre-failure value. -/
theorem update_review_failure_witness :
    (compute_next_schedule (compute_next_schedule (compute_next_schedule
        { id := "1".data, german := "a".data } 3 (fun _ => [])) 3 (fun _ => [])) 3
        (fun _ => [])).repetition = 3 ∧
    (∃ p', (update_review (update_review (update_review (update_review
        ⟨[{ id := "1".data, german := "a".data }]⟩
        "1".data 3 (fun _ => [])) "1".data 3 (fun _ => [])) "1".data 3 (fun _ => []))
        "1".data 2 (fun _ => [])).lookup "1".data = some p' ∧
      p'.repetition = 0 ∧ p'.interval_days = 1 ∧
      p'.ease_factor = (compute_next_schedule (compute_next_schedule (compute_next_schedule
        { id := "1".data, german := "a".data } 3 (fun _ => [])) 3 (fun _ => [])) 3
        (fun _ => [])).ease_factor) :=
  ⟨by decide,
    update_review_failure _ "1".data 2 (fun _ => [])
      (compute_next_schedule (compute_next_schedule (compute_next_schedule
        { id := "1".data, german := "a".data } 3 (fun _ => [])) 3 (fun _ => [])) 3
        (fun _ => []))
      rfl (by decide)⟩

/-- Invariant preservation for C3: one operation keeps every stored ease
factor at or above `1.3`. -/
theorem ease_invariant_step (nfc : Str → Str) (db : PhrasesDB) (op : Op)
    (h : ∀ p ∈ db.phrases, (13/10 : ℚ) ≤ p.ease_factor) :
    ∀ p ∈ (applyOp nfc db op).phrases, (13/10 : ℚ) ≤ p.ease_factor := by
  intro p hp
  cases op with
  | add g now =>
      cases hfs : find_similar_phrase nfc db g with
      | some e =>
          have heq : applyOp nfc db (.add g now) = db := by
            show (add_phrase nfc db g now).2 = db
            unfold add_phrase
            rw [hfs]
          rw [heq] at hp
          exact h p hp
      | none =>
          have heq : applyOp nfc db (.add g now) =
              ⟨dictSet db.phrases (natToStr (db.phrases.length + 1))
                { id := natToStr (db.phrases.length + 1), german := g,
                  next_review := some now }⟩ := by
            show (add_phrase nfc db g now).2 = _
            unfold add_phrase
            rw [hfs]
          rw [heq] at hp
          rcases mem_dictSet _ _ _ hp with h1 | h1
          · exact h p h1
          · rw [h1]
            norm_num
  | review pid q f =>
      cases hlk : db.lookup pid with
      | none =>
          have heq : applyOp nfc db (.review pid q f) = db := by
            show update_review db pid q f = db
            unfold update_review
            rw [hlk]
          rw [heq] at hp
          exact h p hp
      | some ph =>
          have heq : applyOp nfc db (.review pid q f) =
              ⟨dictSet db.phrases pid (compute_next_schedule ph q f)⟩ := by
            show update_review db pid q f = _
            unfold update_review
            rw [hlk]
          rw [heq] at hp
          rcases mem_dictSet _ _ _ hp with h1 | h1
          · exact h p h1
          · rw [h1]
            have hph := h ph (List.mem_of_find?_eq_some hlk)
            unfold compute_next_schedule
            by_cases hq : 3 ≤ q
            · simp only [if_pos hq]
              exact le_max_left _ _
            · simp only [if_neg hq]
              exact hph

/-- C3: starting from an empty store, any sequence of `add_phrase` and
`update_review` calls with arbitrary integer qualities keeps every stored
phrase's ease factor at or above `1.3`: new phrases start at `2.5`, the
success branch clamps at `1.3`, and the failure branch leaves the ease
factor unchanged. -/
theorem ease_factor_invariant (nfc : Str → Str) (ops : List Op) (p : Phrase)
    (hp : p ∈ (runOps nfc ⟨[]⟩ ops).phrases) : (13/10 : ℚ) ≤ p.ease_factor := by
  suffices hgen : ∀ ops' (db : PhrasesDB), (∀ x ∈ db.phrases, (13/10 : ℚ) ≤ x.ease_factor) →
      ∀ x ∈ (runOps nfc db ops').phrases, (13/10 : ℚ) ≤ x.ease_factor by
    exact hgen ops ⟨[]⟩ (by simp) p hp
  intro ops'
  induction ops' with
  | nil => exact fun db h x hx => h x hx
  | cons op rest ih =>
      exact fun db h x hx => ih (applyOp nfc db op) (ease_invariant_step nfc db op h) x hx

/-- C3 witness: after a single `add_phrase` on the empty store the stored
phrase has the default ease factor `2.5 ≥ 1.3`. -/
theorem ease_factor_invariant_witness :
    (13/10 : ℚ) ≤ (Phrase.mk "1".data "a".data (5/2) 0 0 (some [])).ease_factor :=
  ease_factor_invariant (fun s => s) [.add "a".data []]
    (Phrase.mk "1".data "a".data (5/2) 0 0 (some [])) (List.Mem.head _)

/-- C9: for every `phrase_id` not present in the store and any quality,
`update_review` raises nothing and leaves the entire store unchanged. -/
theorem update_review_unknown_noop (db : PhrasesDB) (pid : Str) (q : ℤ) (f : ℤ → Str)
    (h : db.lookup pid = none) : update_review db pid q f = db := by
  unfold update_review
  rw [h]

/-- C9 witness: an unknown id on a one-phrase store. -/
theorem update_review_unknown_noop_witness :
    update_review ⟨[{ id := "1".data, german := "a".data }]⟩ "9".data 4 (fun _ => []) =
      ⟨[{ id := "1".data, german := "a".data }]⟩ :=
  update_review_unknown_noop ⟨[{ id := "1".data, german := "a".data }]⟩ "9".data 4
    (fun _ => []) rfl

/-- C4 counterexample: on the normalized strings `"ab"` and `"ac"` the code
(two leading spaces of padding) yields `1/5` — trigram `"  a"` is shared —
while the claimed one-leading-space Jaccard index yields `0`. -/
theorem calculate_similarity_spec_counterexample :
    calculate_similarity "ab".data "ac".data ≠ specSimilarity "ab".data "ac".data := by
  have e1 : (get_trigrams "ab".data ∩ get_trigrams "ac".data).card = 1 := by decide
  have e2 : (get_trigrams "ab".data ∪ get_trigrams "ac".data).card = 5 := by decide
  have e3 : ¬(get_trigrams "ab".data = ∅ ∨ get_trigrams "ac".data = ∅) := by decide
  have f1 : (specGetTrigrams "ab".data ∩ specGetTrigrams "ac".data).card = 0 := by decide
  have f2 : (specGetTrigrams "ab".data ∪ specGetTrigrams "ac".data).card = 4 := by decide
  simp only [calculate_similarity, specSimilarity, e1, e2, e3, f1, f2, if_false, if_neg,
    not_false_iff]
  norm_num

/-- C4 (amended): the function `_calculate_similarity` returns the trigram Jaccard index
`|T(a) ∩ T(b)| / |T(a) ∪ T(b)|` where `T` pads with exactly two leading
spaces and one trailing space; the guards for empty trigram sets and a zero
union are unreachable, because the padding alone always yields a trigram. -/
theorem calculate_similarity_jaccard (a b : Str) :
    calculate_similarity a b =
      ((get_trigrams a ∩ get_trigrams b).card : ℚ) /
        ((get_trigrams a ∪ get_trigrams b).card : ℚ) := by
  have hna := get_trigrams_nonempty a
  have hnb := get_trigrams_nonempty b
  obtain ⟨x, hx⟩ := hna
  have hu : 0 < (get_trigrams a ∪ get_trigrams b).card :=
    Finset.card_pos.mpr ⟨x, Finset.mem_union_left _ hx⟩
  simp only [calculate_similarity]
  rw [if_neg, if_pos hu]
  rw [not_or]
  exact ⟨Finset.nonempty_iff_ne_empty.mp ⟨x, hx⟩, Finset.nonempty_iff_ne_empty.mp hnb⟩

/-- Stability of a dedup hit (for C5): while `find_similar_phrase` keeps
returning the same stored phrase, repeated `add_phrase` calls return its id
with `is_new = False` and never modify the store. -/
theorem addRepeat_of_hit (nfc : Str → Str) (db : PhrasesDB) (s : Str) (e : Phrase)
    (hhit : find_similar_phrase nfc db s = some e) (clocks : List Str) :
    addRepeat nfc db s clocks = (clocks.map (fun _ => (e.id, false, some e.german)), db) := by
  induction clocks with
  | nil => rfl
  | cons c cs ih =>
      have h1 : add_phrase nfc db s c = ((e.id, false, some e.german), db) := by
        unfold add_phrase
        rw [hhit]
      simp only [addRepeat, h1, ih, List.map_cons]

/-- A missed dedup followed by the insertion (for C5): the store becomes the
old list with the new phrase appended, provided the newly allocated id is
fresh. -/
theorem add_phrase_of_miss (nfc : Str → Str) (db : PhrasesDB) (s : Str) (now : Str)
    (hmiss : find_similar_phrase nfc db s = none)
    (hfresh : ∀ q ∈ db.phrases, q.id ≠ natToStr (db.phrases.length + 1)) :
    add_phrase nfc db s now =
      ((natToStr (db.phrases.length + 1), true, none),
        ⟨db.phrases ++
          [Phrase.mk (natToStr (db.phrases.length + 1)) s (5/2) 0 0 (some now)]⟩) := by
  unfold add_phrase
  rw [hmiss]
  simp only []
  rw [dictSet_of_fresh _ _ _ hfresh]

/-- Self-similarity is `1 ≥ 0.85` (for C5): a phrase whose `german` is the
added text itself is always a dedup hit for that text. -/
theorem find_similar_phrase_append_self (nfc : Str → Str) (db : PhrasesDB) (s : Str)
    (hmiss : find_similar_phrase nfc db s = none) (p : Phrase) (hg : p.german = s) :
    find_similar_phrase nfc ⟨db.phrases ++ [p]⟩ s = some p := by
  unfold find_similar_phrase at hmiss ⊢
  simp only [] at hmiss ⊢
  rw [List.find?_append, hmiss]
  have hpred : decide ((17/20 : ℚ) ≤ calculate_similarity (normalize_phrase nfc s)
      (normalize_phrase nfc p.german)) = true := by
    rw [hg, calculate_similarity_self]
    exact decide_eq_true (by norm_num)
  have hone : List.find?
      (fun q => decide ((17/20 : ℚ) ≤ calculate_similarity (normalize_phrase nfc s)
        (normalize_phrase nfc q.german))) [p] = some p :=
    List.find?_cons_of_pos _ hpred
  rw [hone]
  rfl

/-- C5: after `add_phrase(s)`, every further `add_phrase(s)` returns the same
id with `is_new = False` and leaves the store untouched; if the first call
created a new record the store grew by exactly one, and if it was a dedup
hit the store was never modified at all. The freshness hypothesis — no
stored phrase already uses the id about to be allocated — holds in every
store reachable without removals (ids are `"1".."n"` in insertion order). -/
theorem add_phrase_idempotent (nfc : Str → Str) (db : PhrasesDB) (s : Str) (now : Str)
    (clocks : List Str)
    (hfresh : ∀ q ∈ db.phrases, q.id ≠ natToStr (db.phrases.length + 1)) :
    (∀ r ∈ (addRepeat nfc (add_phrase nfc db s now).2 s clocks).1,
        r.1 = (add_phrase nfc db s now).1.1 ∧ r.2.1 = false) ∧
    (addRepeat nfc (add_phrase nfc db s now).2 s clocks).2 = (add_phrase nfc db s now).2 ∧
    ((add_phrase nfc db s now).1.2.1 = true →
      (add_phrase nfc db s now).2.phrases.length = db.phrases.length + 1) ∧
    ((add_phrase nfc db s now).1.2.1 = false → (add_phrase nfc db s now).2 = db) := by
  cases hfs : find_similar_phrase nfc db s with
  | some e =>
      have h1 : add_phrase nfc db s now = ((e.id, false, some e.german), db) := by
        unfold add_phrase
        rw [hfs]
      rw [h1, addRepeat_of_hit nfc db s e hfs clocks]
      refine ⟨?_, rfl, ?_, fun _ => rfl⟩
      · intro r hr
        rcases List.mem_map.mp hr with ⟨c, _, hc⟩
        rw [← hc]
        exact ⟨rfl, rfl⟩
      · intro hcon
        exact absurd hcon (by simp)
  | none =>
      have h1 := add_phrase_of_miss nfc db s now hfs hfresh
      have h2 : find_similar_phrase nfc
          ⟨db.phrases ++
            [Phrase.mk (natToStr (db.phrases.length + 1)) s (5/2) 0 0 (some now)]⟩ s =
          some (Phrase.mk (natToStr (db.phrases.length + 1)) s (5/2) 0 0 (some now)) :=
        find_similar_phrase_append_self nfc db s hfs _ rfl
      rw [h1, addRepeat_of_hit nfc _ s _ h2 clocks]
      refine ⟨?_, rfl, fun _ => by simp, fun hcon => absurd hcon (by simp)⟩
      intro r hr
      rcases List.mem_map.mp hr with ⟨c, _, hc⟩
      rw [← hc]
      exact ⟨rfl, rfl⟩

/-- C5 witness: adding `"a"` to the empty store and then once more. -/
theorem add_phrase_idempotent_witness :
    (∀ r ∈ (addRepeat (fun s => s) (add_phrase (fun s => s) ⟨[]⟩ "a".data []).2 "a".data
        [[]]).1,
      r.1 = (add_phrase (fun s => s) ⟨[]⟩ "a".data []).1.1 ∧ r.2.1 = false) ∧
    (addRepeat (fun s => s) (add_phrase (fun s => s) ⟨[]⟩ "a".data []).2 "a".data [[]]).2 =
      (add_phrase (fun s => s) ⟨[]⟩ "a".data []).2 ∧
    ((add_phrase (fun s => s) ⟨[]⟩ "a".data []).1.2.1 = true →
      (add_phrase (fun s => s) ⟨[]⟩ "a".data []).2.phrases.length =
        (⟨[]⟩ : PhrasesDB).phrases.length + 1) ∧
    ((add_phrase (fun s => s) ⟨[]⟩ "a".data []).1.2.1 = false →
      (add_phrase (fun s => s) ⟨[]⟩ "a".data []).2 = ⟨[]⟩) :=
  add_phrase_idempotent (fun s => s) ⟨[]⟩ "a".data [] [[]]
    (fun q hq => absurd hq (List.not_mem_nil q))

/-- C6: the function `get_due_phrases` returns the phrases whose `next_review` is set and
`<= now`; if that set is empty and the store is not, it instead returns all
phrases stably sorted by ascending `next_review` with an unset `next_review`
keyed as the empty string (sorting first); a given limit truncates the
result. The hypothesis — no stored phrase has `next_review` equal to the
empty string — holds in every reachable store (`next_review` is `None` or a
rendered ISO timestamp) and makes Python's truthiness test agree with the
non-null reading of the claim. -/
theorem get_due_phrases_spec (db : PhrasesDB) (now : Str) (l : ℕ)
    (hnv : ∀ p ∈ db.phrases, p.next_review ≠ some []) :
    (∀ p ∈ db.phrases,
      (duePred now p = true ↔ ∃ r, p.next_review = some r ∧ strLe r now = true)) ∧
    (db.phrases.filter (duePred now) ≠ [] ∨ db.phrases = [] →
      get_due_phrases db now none = db.phrases.filter (duePred now)) ∧
    (db.phrases.filter (duePred now) = [] ∧ db.phrases ≠ [] →
      (get_due_phrases db now none).Perm db.phrases ∧
        (get_due_phrases db now none).Pairwise
          (fun p q => strLe (dueKey p) (dueKey q) = true)) ∧
    get_due_phrases db now (some l) = (get_due_phrases db now none).take l := by
  refine ⟨?_, ?_, ?_, ?_⟩
  · intro p hp
    cases hr : p.next_review with
    | none => simp [duePred, hr]
    | some r =>
        have hne : r ≠ [] := by
          intro h
          exact hnv p hp (by rw [hr, h])
        simp [duePred, hr, hne]
  · intro h
    unfold get_due_phrases
    simp only []
    rw [if_neg]
    rintro ⟨hfil, hne⟩
    rcases h with h | h
    · exact h hfil
    · exact hne h
  · rintro ⟨hfil, hne⟩
    have hcond : get_due_phrases db now none =
        db.phrases.mergeSort (fun p q => strLe (dueKey p) (dueKey q)) := by
      unfold get_due_phrases
      simp only []
      rw [if_pos ⟨hfil, hne⟩]
    rw [hcond]
    refine ⟨List.mergeSort_perm _ _, ?_⟩
    exact @List.sorted_mergeSort Phrase (fun p q => strLe (dueKey p) (dueKey q))
      (fun a b c hab hbc => strLe_trans hab hbc)
      (fun a b => by
        rcases strLe_total (dueKey a) (dueKey b) with h | h <;> simp [h])
      db.phrases
  · unfold get_due_phrases
    simp only []

/-- C6 witness: a one-phrase store with a due phrase, limit 1. -/
theorem get_due_phrases_spec_witness :
    (∀ p ∈ (⟨[Phrase.mk "1".data "a".data (5/2) 0 0 (some "b".data)]⟩ :
        PhrasesDB).phrases,
      (duePred "c".data p = true ↔
        ∃ r, p.next_review = some r ∧ strLe r "c".data = true)) ∧
    ((⟨[Phrase.mk "1".data "a".data (5/2) 0 0 (some "b".data)]⟩ :
        PhrasesDB).phrases.filter (duePred "c".data) ≠ [] ∨
      (⟨[Phrase.mk "1".data "a".data (5/2) 0 0 (some "b".data)]⟩ :
        PhrasesDB).phrases = [] →
      get_due_phrases ⟨[Phrase.mk "1".data "a".data (5/2) 0 0 (some "b".data)]⟩
          "c".data none =
        (⟨[Phrase.mk "1".data "a".data (5/2) 0 0 (some "b".data)]⟩ :
          PhrasesDB).phrases.filter (duePred "c".data)) ∧
    ((⟨[Phrase.mk "1".data "a".data (5/2) 0 0 (some "b".data)]⟩ :
        PhrasesDB).phrases.filter (duePred "c".data) = [] ∧
      (⟨[Phrase.mk "1".data "a".data (5/2) 0 0 (some "b".data)]⟩ :
        PhrasesDB).phrases ≠ [] →
      (get_due_phrases ⟨[Phrase.mk "1".data "a".data (5/2) 0 0 (some "b".data)]⟩
          "c".data none).Perm
        (⟨[Phrase.mk "1".data "a".data (5/2) 0 0 (some "b".data)]⟩ :
          PhrasesDB).phrases ∧
        (get_due_phrases ⟨[Phrase.mk "1".data "a".data (5/2) 0 0 (some "b".data)]⟩
          "c".data none).Pairwise (fun p q => strLe (dueKey p) (dueKey q) = true)) ∧
    get_due_phrases ⟨[Phrase.mk "1".data "a".data (5/2) 0 0 (some "b".data)]⟩
        "c".data (some 1) =
      (get_due_phrases ⟨[Phrase.mk "1".data "a".data (5/2) 0 0 (some "b".data)]⟩
        "c".data none).take 1 :=
  get_due_phrases_spec ⟨[Phrase.mk "1".data "a".data (5/2) 0 0 (some "b".data)]⟩
    "c".data 1 (by decide)

/-- C7 (spec-modelled): the operation `remove_phrases` partitions the input ids by
presence in the store, deletes the present ones, and returns both
partitions; not-found ids are reported, not raised. Concretely, on a store
holding ids "1" and "2", `remove_phrases(["1","9"])` returns
`(removed=["1"], not_found=["9"])` and only id "2" remains. -/
theorem remove_phrases_spec (db : PhrasesDB) (ids : List Str) :
    (∀ i, i ∈ (remove_phrases db ids).1.1 ↔ i ∈ ids ∧ ∃ p ∈ db.phrases, p.id = i) ∧
    (∀ i, i ∈ (remove_phrases db ids).1.2 ↔ i ∈ ids ∧ ∀ p ∈ db.phrases, p.id ≠ i) ∧
    (∀ p, p ∈ (remove_phrases db ids).2.phrases ↔
      p ∈ db.phrases ∧ p.id ∉ (remove_phrases db ids).1.1) ∧
    remove_phrases
        ⟨[Phrase.mk "1".data "Hallo".data (5/2) 0 0 none,
          Phrase.mk "2".data "Tschüss".data (5/2) 0 0 none]⟩
        ["1".data, "9".data] =
      ((["1".data], ["9".data]),
        ⟨[Phrase.mk "2".data "Tschüss".data (5/2) 0 0 none]⟩) := by
  refine ⟨?_, ?_, ?_, rfl⟩
  · intro i
    simp [remove_phrases, List.mem_filter, List.any_eq_true]
  · intro i
    simp [remove_phrases, List.mem_filter, List.any_eq_true]
  · intro p
    simp only [remove_phrases, List.mem_filter, List.any_eq_true, List.mem_filter,
      Bool.not_eq_true', decide_eq_false_iff_not, Bool.not_eq_true, List.any_eq_false,
      decide_eq_true_eq]
    constructor
    · rintro ⟨hmem, hno⟩
      exact ⟨hmem, fun hin => hno p.id hin rfl⟩
    · rintro ⟨hmem, hno⟩
      exact ⟨hmem, fun i hin hip => hno (hip ▸ hin)⟩

/-- One record round-trips (for C10): the `_id` rename on write is undone on
load and every field survives. -/
theorem recToPhrase_phraseToRec (p : Phrase) : recToPhrase (phraseToRec p) = some p := by
  cases p with
  | mk i g e iv r nr => cases nr <;> rfl

/-- Parsing the saved lines back (for C10). -/
theorem mapM_recToPhrase (l : List Phrase) :
    (l.map phraseToRec).mapM recToPhrase = some l := by
  induction l with
  | nil => rfl
  | cons p ps ih =>
      rw [List.map_cons, List.mapM_cons, recToPhrase_phraseToRec, ih]
      rfl

/-- Rebuilding the dict from parsed phrases with pairwise-fresh ids appends
them in order (for C10). -/
theorem foldl_dictSet_of_nodup (l acc : List Phrase)
    (hdis : ∀ p ∈ l, ∀ q ∈ acc, q.id ≠ p.id)
    (hnd : (l.map Phrase.id).Nodup) :
    l.foldl (fun a p => dictSet a p.id p) acc = acc ++ l := by
  induction l generalizing acc with
  | nil => simp
  | cons p ps ih =>
      have hfresh : ∀ q ∈ acc, q.id ≠ p.id := fun q hq => hdis p (by simp) q hq
      have hstep : dictSet acc p.id p = acc ++ [p] := dictSet_of_fresh acc p.id p hfresh
      have hnd' : (ps.map Phrase.id).Nodup := (List.nodup_cons.mp hnd).2
      have hpid : p.id ∉ ps.map Phrase.id := (List.nodup_cons.mp hnd).1
      have hdis' : ∀ x ∈ ps, ∀ q ∈ acc ++ [p], q.id ≠ x.id := by
        intro x hx q hq
        rcases List.mem_append.mp hq with hq | hq
        · exact hdis x (by simp [hx]) q hq
        · rw [List.mem_singleton.mp hq]
          intro hcon
          exact hpid (hcon ▸ List.mem_map_of_mem Phrase.id hx)
      calc (p :: ps).foldl (fun a x => dictSet a x.id x) acc
          = ps.foldl (fun a x => dictSet a x.id x) (dictSet acc p.id p) := rfl
        _ = ps.foldl (fun a x => dictSet a x.id x) (acc ++ [p]) := by rw [hstep]
        _ = (acc ++ [p]) ++ ps := ih (acc ++ [p]) hdis' hnd'
        _ = acc ++ p :: ps := by simp

/-- C10: for every store whose ids are distinct (always true of a Python
dict keyed by id), loading the records written by `_save` reconstructs the
phrase map exactly — same ids in the same order, every field preserved, the
`id` field surviving the rename to `_id` and back. -/
theorem save_load_roundtrip (db : PhrasesDB)
    (h : (db.phrases.map Phrase.id).Nodup) :
    loadRecords (saveRecords db) = some db := by
  unfold loadRecords saveRecords
  rw [mapM_recToPhrase]
  show some (PhrasesDB.mk (db.phrases.foldl (fun acc p => dictSet acc p.id p) [])) = some db
  rw [foldl_dictSet_of_nodup db.phrases [] (fun p _ q hq => absurd hq (List.not_mem_nil q)) h]
  rw [List.nil_append]

/-- C10 witness: a two-phrase store. -/
theorem save_load_roundtrip_witness :
    loadRecords (saveRecords ⟨[Phrase.mk "1".data "Hallo".data (5/2) 0 0 none,
        Phrase.mk "2".data "Welt".data (5/2) 1 1 (some "t".data)]⟩) =
      some ⟨[Phrase.mk "1".data "Hallo".data (5/2) 0 0 none,
        Phrase.mk "2".data "Welt".data (5/2) 1 1 (some "t".data)]⟩ :=
  save_load_roundtrip ⟨[Phrase.mk "1".data "Hallo".data (5/2) 0 0 none,
    Phrase.mk "2".data "Welt".data (5/2) 1 1 (some "t".data)]⟩ (by decide)

/-- The end-to-end scenario of C8, step by step, for any NFC table that is
the identity on the two ASCII inputs. -/
theorem end_to_end_steps (nfc : Str → Str) (t1 t2 : Str) (f : ℤ → Str)
    (h1 : nfc "Guten Morgen".data = "Guten Morgen".data)
    (h2 : nfc "guten morgen".data = "guten morgen".data) :
    add_phrase nfc ⟨[]⟩ "Guten Morgen".data t1 =
      ((natToStr 1, true, none),
        ⟨[Phrase.mk (natToStr 1) "Guten Morgen".data (5/2) 0 0 (some t1)]⟩) ∧
    add_phrase nfc ⟨[Phrase.mk (natToStr 1) "Guten Morgen".data (5/2) 0 0 (some t1)]⟩
        "guten morgen".data t2 =
      ((natToStr 1, false, some "Guten Morgen".data),
        ⟨[Phrase.mk (natToStr 1) "Guten Morgen".data (5/2) 0 0 (some t1)]⟩) ∧
    update_review ⟨[Phrase.mk (natToStr 1) "Guten Morgen".data (5/2) 0 0 (some t1)]⟩
        "1".data 4 f =
      ⟨[compute_next_schedule
          (Phrase.mk (natToStr 1) "Guten Morgen".data (5/2) 0 0 (some t1)) 4 f]⟩ ∧
    (compute_next_schedule
        (Phrase.mk (natToStr 1) "Guten Morgen".data (5/2) 0 0 (some t1)) 4 f).interval_days
      = 1 ∧
    (compute_next_schedule
        (Phrase.mk (natToStr 1) "Guten Morgen".data (5/2) 0 0 (some t1)) 4 f).repetition
      = 1 ∧
    (compute_next_schedule
        (Phrase.mk (natToStr 1) "Guten Morgen".data (5/2) 0 0 (some t1)) 4 f).ease_factor
      = 5/2 := by
  have n1 : normalize_phrase nfc "Guten Morgen".data = "guten morgen".data := by
    unfold normalize_phrase
    rw [h1]
    decide
  have n2 : normalize_phrase nfc "guten morgen".data = "guten morgen".data := by
    unfold normalize_phrase
    rw [h2]
    decide
  have hpred : (fun p => decide ((17/20 : ℚ) ≤
      calculate_similarity (normalize_phrase nfc "guten morgen".data)
        (normalize_phrase nfc p.german)))
      (Phrase.mk (natToStr 1) "Guten Morgen".data (5/2) 0 0 (some t1)) = true := by
    show decide ((17/20 : ℚ) ≤
      calculate_similarity (normalize_phrase nfc "guten morgen".data)
        (normalize_phrase nfc "Guten Morgen".data)) = true
    rw [n1, n2, calculate_similarity_self]
    exact decide_eq_true (by norm_num)
  have hfs2 : find_similar_phrase nfc
      ⟨[Phrase.mk (natToStr 1) "Guten Morgen".data (5/2) 0 0 (some t1)]⟩
      "guten morgen".data =
      some (Phrase.mk (natToStr 1) "Guten Morgen".data (5/2) 0 0 (some t1)) := by
    unfold find_similar_phrase
    simp only []
    exact List.find?_cons_of_pos _ hpred
  refine ⟨rfl, ?_, ?_, ?_, ?_, ?_⟩
  · unfold add_phrase
    rw [hfs2]
  · unfold update_review
    rw [show PhrasesDB.lookup
        ⟨[Phrase.mk (natToStr 1) "Guten Morgen".data (5/2) 0 0 (some t1)]⟩ "1".data =
        some (Phrase.mk (natToStr 1) "Guten Morgen".data (5/2) 0 0 (some t1)) from rfl]
    rfl
  · rw [compute_next_schedule_success _ _ _ (by decide)]
    rfl
  · rw [compute_next_schedule_success _ _ _ (by decide)]
    rfl
  · rw [compute_next_schedule_success _ _ _ (by decide)]
    show max (13/10 : ℚ)
        ((5/2 : ℚ) + ((1/10 : ℚ) - (5 - ((4 : ℤ) : ℚ)) *
          ((2/25 : ℚ) + (5 - ((4 : ℤ) : ℚ)) * (1/50 : ℚ)))) = 5/2
    norm_num

/-- C8 counterexample: running the claimed scenario — `add_phrase("Guten
Morgen")`, `add_phrase("guten morgen")`, `update_review("1", quality=4)` —
gives `interval_days = 1` and `repetition = 1` as claimed, but the ease
factor is exactly `2.5`, not strictly greater: the quality-4 delta
`0.1 - (5-4)*(0.08 + (5-4)*0.02)` is exactly zero (also in Python's binary
floats, where `0.08 + 0.02 == 0.1`). -/
theorem end_to_end_quality4_counterexample :
    ((get_all_phrases (update_review
        (add_phrase (fun s => s) (add_phrase (fun s => s) ⟨[]⟩ "Guten Morgen".data []).2
          "guten morgen".data []).2 "1".data 4 (fun _ => []))).map
        (fun p => (p.interval_days, p.repetition)) = [(1, 1)]) ∧
    ¬ ∃ p ∈ get_all_phrases (update_review
        (add_phrase (fun s => s) (add_phrase (fun s => s) ⟨[]⟩ "Guten Morgen".data []).2
          "guten morgen".data []).2 "1".data 4 (fun _ => [])),
      (5/2 : ℚ) < p.ease_factor := by
  obtain ⟨s1, s2, s3, i4, r5, e6⟩ :=
    end_to_end_steps (fun s => s) [] [] (fun _ => []) rfl rfl
  constructor
  · simp only [s1, s2, s3, get_all_phrases, List.map_cons, List.map_nil]
    rw [i4, r5]
  · rintro ⟨p, hp, hlt⟩
    simp only [s1, s2, s3, get_all_phrases] at hp
    rw [List.mem_singleton] at hp
    rw [hp, e6] at hlt
    exact lt_irrefl _ hlt

/-- C8 (amended): on a fresh store, `add_phrase("Guten Morgen")` returns
`("1", True, None)`; `add_phrase("guten morgen")` then returns
`("1", False, "Guten Morgen")` leaving the store unmodified; after
`update_review("1", quality=4)`, `get_all_phrases` returns exactly one
record with `interval_days = 1`, `repetition = 1`, and `ease_factor`
exactly equal to `2.5` (the quality-4 ease delta is exactly zero, so the
ease factor is not strictly greater than 2.5). -/
theorem end_to_end_quality4 (nfc : Str → Str) (t1 t2 : Str) (f : ℤ → Str)
    (h1 : nfc "Guten Morgen".data = "Guten Morgen".data)
    (h2 : nfc "guten morgen".data = "guten morgen".data) :
    (add_phrase nfc ⟨[]⟩ "Guten Morgen".data t1).1 = ("1".data, true, none) ∧
    (add_phrase nfc (add_phrase nfc ⟨[]⟩ "Guten Morgen".data t1).2
        "guten morgen".data t2).1 = ("1".data, false, some "Guten Morgen".data) ∧
    (add_phrase nfc (add_phrase nfc ⟨[]⟩ "Guten Morgen".data t1).2
        "guten morgen".data t2).2 = (add_phrase nfc ⟨[]⟩ "Guten Morgen".data t1).2 ∧
    ∃ p, get_all_phrases (update_review
        (add_phrase nfc (add_phrase nfc ⟨[]⟩ "Guten Morgen".data t1).2
          "guten morgen".data t2).2 "1".data 4 f) = [p] ∧
      p.interval_days = 1 ∧ p.repetition = 1 ∧ p.ease_factor = 5/2 := by
  obtain ⟨s1, s2, s3, i4, r5, e6⟩ := end_to_end_steps nfc t1 t2 f h1 h2
  have hid : natToStr 1 = "1".data := by decide
  rw [hid] at s1 s2 s3 i4 r5 e6
  refine ⟨?_, ?_, ?_, ?_⟩
  · rw [s1]
  · simp only [s1]
    rw [s2]
  · simp only [s1]
    rw [s2]
  · simp only [s1, s2]
    rw [s3]
    exact ⟨_, rfl, i4, r5, e6⟩

/-- C8 witness: the scenario with the identity NFC table and fixed clock
readings. -/
theorem end_to_end_quality4_witness :
    (add_phrase (fun s => s) ⟨[]⟩ "Guten Morgen".data []).1 = ("1".data, true, none) ∧
    (add_phrase (fun s => s) (add_phrase (fun s => s) ⟨[]⟩ "Guten Morgen".data []).2
        "guten morgen".data []).1 = ("1".data, false, some "Guten Morgen".data) ∧
    (add_phrase (fun s => s) (add_phrase (fun s => s) ⟨[]⟩ "Guten Morgen".data []).2
        "guten morgen".data []).2 = (add_phrase (fun s => s) ⟨[]⟩ "Guten Morgen".data []).2 ∧
    ∃ p, get_all_phrases (update_review
        (add_phrase (fun s => s) (add_phrase (fun s => s) ⟨[]⟩ "Guten Morgen".data []).2
          "guten morgen".data []).2 "1".data 4 (fun _ => [])) = [p] ∧
      p.interval_days = 1 ∧ p.repetition = 1 ∧ p.ease_factor = 5/2 :=
  end_to_end_quality4 (fun s => s) [] [] (fun _ => []) rfl rfl

end Deubot
